import Mathlib

/-!
Verification of the timeline-extraction, works-section and favorites logic of
the Legends and Luminaries application (src/app.py), as a shallow embedding.

Conventions of the embedding:
  - Python strings are Lean String values; character-level work is done on
    List Char. The texts handled here are ASCII, so the ASCII readings of
    the regex character classes (backslash-s, backslash-w, backslash-d) and
    of str.strip and str.lower are used.
  - Python int is Lean Int where sign matters (max_events), Nat for years.
  - The Python sorted builtin is a stable sort; it is embedded as Mathlib
    insertion sort, which is stable, and a stable sort by a key is unique,
    so both compute the same list.
  - Fallible dynamic typing is embedded with an explicit Python-value type
    and Except: applying re.split to a truthy non-string raises TypeError.
-/

namespace Legends

/-- ASCII whitespace, the characters matched by the regex class backslash-s
and stripped by str.strip. -/
def isSpace (c : Char) : Bool :=
  c == ' ' || c == '\t' || c == '\n' || c == '\r' || c == '\x0b' || c == '\x0c'

/-- ASCII word character, the regex class backslash-w: letter, digit or underscore. -/
def isWordChar (c : Char) : Bool :=
  c.isAlpha || c.isDigit || c == '_'

/-- Whether the previously scanned character (none at the start of the string)
is a word character; used for the left side of a word boundary. -/
def prevIsWord : Option Char → Bool
  | none => false
  | some c => isWordChar c

/-- Whether the next unscanned character (none at the end of the string)
is a word character; used for the right side of a word boundary. -/
def headIsWord : List Char → Bool
  | [] => false
  | c :: _ => isWordChar c

/-- Whether the previously scanned character is sentence-terminal punctuation,
the lookbehind class of the sentence-splitting regex in app.py line 388. -/
def isTerminal : Option Char → Bool
  | none => false
  | some c => c == '.' || c == '?' || c == '!'

/-- Embedding of re.split applied to the pattern
lookbehind-terminal-then-whitespace-run (src/app.py line 388).
The scanner walks the text one character ahead; on a whitespace character
preceded by terminal punctuation it closes the current sentence and switches
to a skipping state that consumes the rest of the maximal whitespace run,
exactly as the greedy whitespace-run match does.  prev is the character just
before the scan position (none at the start); cur is the current sentence
accumulated in reverse. -/
def splitAux : Bool → Option Char → List Char → List Char → List (List Char)
  | _, _, cur, [] => [cur.reverse]
  | skipping, prev, cur, c :: rest =>
    if skipping && isSpace c then
      splitAux true (some c) cur rest
    else if isTerminal prev && isSpace c then
      cur.reverse :: splitAux true (some c) [] rest
    else
      splitAux false (some c) (c :: cur) rest

/-- Sentence splitting of src/app.py line 388. -/
def splitSentences (s : List Char) : List (List Char) :=
  splitAux false none [] s

/-- The alternation of the year regex (src/app.py line 391): first two digits
18, 19 or 20, last two digits arbitrary. -/
def isYearDigits (c1 c2 c3 c4 : Char) : Bool :=
  (c1 == '1' && (c2 == '8' || c2 == '9') && c3.isDigit && c4.isDigit) ||
  (c1 == '2' && c2 == '0' && c3.isDigit && c4.isDigit)

/-- Numeric value of an ASCII digit. -/
def digitVal (c : Char) : Nat := c.toNat - '0'.toNat

/-- Value of a four-digit year, the int conversion of src/app.py line 395,
which cannot fail on a four-digit match. -/
def yearVal (c1 c2 c3 c4 : Char) : Nat :=
  1000 * digitVal c1 + 100 * digitVal c2 + 10 * digitVal c3 + digitVal c4

/-- Embedding of re.findall for the year pattern of src/app.py line 391:
scan left to right; at each position, if the next four characters form a year
and a word boundary holds on both sides, emit the year and continue after the
match (matches are non-overlapping), else advance one character.  prev is the
character just before the scan position. -/
def findYearsAux (prev : Option Char) : List Char → List Nat
  | c1 :: c2 :: c3 :: c4 :: rest =>
    if isYearDigits c1 c2 c3 c4 && !prevIsWord prev && !headIsWord rest then
      yearVal c1 c2 c3 c4 :: findYearsAux (some c4) rest
    else
      findYearsAux (some c1) (c2 :: c3 :: c4 :: rest)
  | c :: rest => findYearsAux (some c) rest
  | [] => []

/-- All years found in a sentence, src/app.py line 391. -/
def findYears (s : List Char) : List Nat :=
  findYearsAux none s

/-- The character effectively preceding a match that starts right after pre:
the last character of pre, or the character before the scanned region (prev)
when pre is empty. -/
def effPrev (prev : Option Char) (pre : List Char) : Option Char :=
  match pre.getLast? with
  | some c => some c
  | none => prev

/-- A year occurrence with word-boundary semantics, the condition under which
the regex of src/app.py line 391 matches: four year digits delimited on the
left by a non-word character (or the edge) and on the right by a non-word
character (or the edge).  prev is the character just before the scanned
region, none at the start of the string. -/
def wordBoundedYearOccurrence (prev : Option Char) (s : List Char) (y : Nat) : Prop :=
  ∃ pre c1 c2 c3 c4 post,
    s = pre ++ c1 :: c2 :: c3 :: c4 :: post ∧
    isYearDigits c1 c2 c3 c4 = true ∧
    prevIsWord (effPrev prev pre) = false ∧
    headIsWord post = false ∧
    y = yearVal c1 c2 c3 c4

/-- The boundary condition in the words of the claim, for comparison with the
source behavior: the four year digits need only be delimited by non-digit
characters (or the edge) on both sides.  This differs from the word-boundary
semantics of the source regex on letters and underscores. -/
def specNonDigitBoundedOccurrence (s : List Char) (y : Nat) : Prop :=
  ∃ pre c1 c2 c3 c4 post,
    s = pre ++ c1 :: c2 :: c3 :: c4 :: post ∧
    isYearDigits c1 c2 c3 c4 = true ∧
    pre.getLast?.all (fun c => !c.isDigit) = true ∧
    post.head?.all (fun c => !c.isDigit) = true ∧
    y = yearVal c1 c2 c3 c4

/-- Embedding of str.strip: remove ASCII whitespace from both ends. -/
def pyStrip (l : List Char) : List Char :=
  ((l.dropWhile isSpace).reverse.dropWhile isSpace).reverse

/-- A timeline event, the dict with keys year and text built at
src/app.py line 396. -/
structure TimelineEvent where
  year : Nat
  text : String
deriving DecidableEq

/-- The sort key of src/app.py line 402: ascending year. -/
def byYear (a b : TimelineEvent) : Prop := a.year ≤ b.year

instance : DecidableRel byYear := fun a b => Nat.decLe a.year b.year

instance : IsTotal TimelineEvent byYear := ⟨fun a b => Nat.le_total a.year b.year⟩

instance : IsTrans TimelineEvent byYear := ⟨fun _ _ _ => Nat.le_trans⟩

/-- Embedding of the Python sorted builtin with the year key
(src/app.py line 402).  Python sorting is stable, and a stable sort by a key
is extensionally unique, so stable insertion sort computes the same list. -/
def sortEvents (l : List TimelineEvent) : List TimelineEvent :=
  l.insertionSort byYear

/-- The deduplication loop of src/app.py lines 400 to 407: walk the sorted
events, keep an event when its text has not been seen, and stop as soon as
the accumulated output length reaches max_events (checked after every
element, matching the placement of the break). -/
def buildLoop (maxEvents : Int) : List TimelineEvent → List String → List TimelineEvent → List TimelineEvent
  | [], _, acc => acc
  | e :: rest, seen, acc =>
    if e.text ∈ seen then
      if (acc.length : Int) ≥ maxEvents then acc else buildLoop maxEvents rest seen acc
    else
      if ((acc ++ [e]).length : Int) ≥ maxEvents then acc ++ [e]
      else buildLoop maxEvents rest (e.text :: seen) (acc ++ [e])

/-- The timeline builder of the spec, section 4.2: the sort, dedupe and cap
portion of extract_timeline_from_text, src/app.py lines 399 to 408. -/
def build (pairs : List TimelineEvent) (maxEvents : Int) : List TimelineEvent :=
  buildLoop maxEvents (sortEvents pairs) [] []

/-- The raw events of one sentence: one event per year match, all carrying
the stripped sentence text (src/app.py lines 391 to 396). -/
def eventsOfSentence (s : List Char) : List TimelineEvent :=
  (findYears s).map fun y => TimelineEvent.mk y (pyStrip s).asString

/-- All raw events of a text, before deduplication (src/app.py lines 387
to 398). -/
def rawEvents (text : String) : List TimelineEvent :=
  (splitSentences text.data).flatMap eventsOfSentence

/-- Embedding of extract_timeline_from_text (src/app.py lines 380 to 408)
for a string argument.  The guard on line 385 tests Python truthiness, which
for a string is non-emptiness. -/
def extract_timeline_from_text (text : String) (maxEvents : Int) : List TimelineEvent :=
  if text = "" then [] else build (rawEvents text) maxEvents

/-- A Python value, for the dynamically typed call boundary of
extract_timeline_from_text. -/
inductive PyVal where
  | none : PyVal
  | str : String → PyVal
  | int : Int → PyVal
  | list : List PyVal → PyVal

/-- Python truthiness for the modelled values. -/
def truthy : PyVal → Bool
  | .none => false
  | .str s => s ≠ ""
  | .int n => n ≠ 0
  | .list xs => !xs.isEmpty

/-- Embedding of calling extract_timeline_from_text with an arbitrary Python
value.  A falsy value returns early at the guard of line 385; a truthy string
runs the extraction; any other truthy value reaches re.split on line 388,
which raises TypeError on a non-string argument. -/
def extract_py (v : PyVal) (maxEvents : Int) : Except String (List TimelineEvent) :=
  if truthy v then
    match v with
    | .str s => .ok (extract_timeline_from_text s maxEvents)
    | _ => .error "TypeError"
  else
    .ok []

/-- Embedding of str.strip on a Lean String. -/
def pyStripStr (s : String) : String :=
  (pyStrip s.data).asString

/-- The alternatives of the works-section regex of src/app.py line 503,
in pattern order. -/
def worksKeywords : List (List Char) :=
  ["works".data, "books".data, "bibliography".data,
   "publications".data, "selected works".data]

/-- Whether some alternative of the pattern matches at the current
position. -/
def matchesAt (alts : List (List Char)) (hay : List Char) : Bool :=
  alts.any fun a => a.isPrefixOf hay

/-- Embedding of re.search for an alternation of literal words: try every
position from left to right, at each position trying the alternatives. -/
def reSearch (alts : List (List Char)) : List Char → Bool
  | [] => matchesAt alts []
  | c :: rest => matchesAt alts (c :: rest) || reSearch alts rest

/-- The works-section test of src/app.py line 503: the re.I flag folds case,
embedded by lowercasing the title (the pattern is already lowercase and the
titles handled here are ASCII). -/
def matchSection (title : String) : Bool :=
  reSearch worksKeywords (title.data.map Char.toLower)

/-- A section of a biography document: a title, a body, and nested
subsections, the shape walked by the works collector. -/
structure Section where
  title : String
  body : String
  subsections : List Section

/-- Modelled from the spec: the body of the works-collector loop is missing
from src/app.py, which is truncated in the middle of line 503 right after
the keyword test; following spec section 4.3, a matched top-level section
emits its title with trimmed body, followed by one entry per direct child
subsection with the composite heading parent, arrow, child, included
unconditionally; unmatched sections are skipped with their subsections, and
grandchildren are never visited. -/
def collectWorks (sections : List Section) : List (String × String) :=
  sections.flatMap fun s =>
    if matchSection s.title then
      (s.title, pyStripStr s.body) ::
        s.subsections.map fun c => (s.title ++ " → " ++ c.title, pyStripStr c.body)
    else []

/-- Replace the subsections of every subsection by the empty list, leaving
depth zero and depth one intact. -/
def pruneGrandchildren (sections : List Section) : List Section :=
  sections.map fun s =>
    Section.mk s.title s.body
      (s.subsections.map fun c => Section.mk c.title c.body [])

/-- Embedding of add_favorite (src/app.py lines 244 to 247): the session
favorites list is passed explicitly; the name is appended only when not
already present. -/
def add_favorite (name : String) (favorites : List String) : List String :=
  if name ∈ favorites then favorites else favorites ++ [name]

/-- Embedding of remove_favorite (src/app.py lines 249 to 251): the Python
list remove call deletes the first occurrence; it is guarded by a membership
test, so an absent name leaves the list unchanged. -/
def remove_favorite (name : String) (favorites : List String) : List String :=
  if name ∈ favorites then favorites.erase name else favorites

/-- The deduplication of the spec without the cap: keep each event whose text
was not seen before, remembering seen texts.  buildLoop is shown below to be
a take of this list. -/
def dedupeByText (seen : List String) : List TimelineEvent → List TimelineEvent
  | [] => []
  | e :: rest =>
    if e.text ∈ seen then dedupeByText seen rest
    else e :: dedupeByText (e.text :: seen) rest

theorem dedupeByText_sublist : ∀ (l : List TimelineEvent) (seen : List String),
    List.Sublist (dedupeByText seen l) l
  | [], _ => List.Sublist.refl _
  | e :: rest, seen => by
    by_cases h : e.text ∈ seen
    · simpa [dedupeByText, h] using (dedupeByText_sublist rest seen).cons e
    · simpa [dedupeByText, h] using (dedupeByText_sublist rest (e.text :: seen)).cons₂ e

theorem text_not_mem_of_mem_dedupeByText :
    ∀ (l : List TimelineEvent) (seen : List String) (e : TimelineEvent),
    e ∈ dedupeByText seen l → e.text ∉ seen
  | [], _, _, h => by simp [dedupeByText] at h
  | x :: rest, seen, e, h => by
    by_cases hx : x.text ∈ seen
    · exact text_not_mem_of_mem_dedupeByText rest seen e (by simpa [dedupeByText, hx] using h)
    · simp only [dedupeByText, hx, if_neg, ite_false, List.mem_cons] at h
      rcases h with h | h
      · simpa [h] using hx
      · have := text_not_mem_of_mem_dedupeByText rest (x.text :: seen) e h
        exact fun hc => this (List.mem_cons_of_mem _ hc)

theorem nodup_texts_dedupeByText :
    ∀ (l : List TimelineEvent) (seen : List String),
    ((dedupeByText seen l).map TimelineEvent.text).Nodup
  | [], _ => by simp [dedupeByText]
  | x :: rest, seen => by
    by_cases hx : x.text ∈ seen
    · simpa [dedupeByText, hx] using nodup_texts_dedupeByText rest seen
    · simp only [dedupeByText, hx, ite_false, List.map_cons, List.nodup_cons]
      refine ⟨fun hmem => ?_, nodup_texts_dedupeByText rest (x.text :: seen)⟩
      rcases List.mem_map.mp hmem with ⟨e, he, hte⟩
      exact text_not_mem_of_mem_dedupeByText rest (x.text :: seen) e he
        (by simp [hte])

theorem year_min_of_mem_dedupeByText :
    ∀ (l : List TimelineEvent) (seen : List String) (e : TimelineEvent),
    l.Pairwise byYear → e ∈ dedupeByText seen l →
    ∀ p ∈ l, p.text = e.text → e.year ≤ p.year
  | [], _, _, _, h => by simp [dedupeByText] at h
  | x :: rest, seen, e, hpw, h => by
    have hpw' := (List.pairwise_cons.mp hpw).2
    have hx_rest := (List.pairwise_cons.mp hpw).1
    by_cases hx : x.text ∈ seen
    · have h' : e ∈ dedupeByText seen rest := by simpa [dedupeByText, hx] using h
      intro p hp hpt
      rcases List.mem_cons.mp hp with rfl | hp'
      · exact absurd (hpt ▸ hx) (text_not_mem_of_mem_dedupeByText rest seen e h')
      · exact year_min_of_mem_dedupeByText rest seen e hpw' h' p hp' hpt
    · simp only [dedupeByText, hx, ite_false, List.mem_cons] at h
      rcases h with rfl | h'
      · intro p hp hpt
        rcases List.mem_cons.mp hp with rfl | hp'
        · exact Nat.le_refl _
        · exact hx_rest p hp'
      · intro p hp hpt
        rcases List.mem_cons.mp hp with rfl | hp'
        · exact absurd (by rw [← hpt]; exact List.mem_cons_self _ _)
            (text_not_mem_of_mem_dedupeByText rest (p.text :: seen) e h')
        · exact year_min_of_mem_dedupeByText rest (x.text :: seen) e hpw' h' p hp' hpt

theorem buildLoop_eq_take (m : Int) :
    ∀ (l : List TimelineEvent) (seen : List String) (acc : List TimelineEvent),
    (acc.length : Int) < m →
    buildLoop m l seen acc = acc ++ (dedupeByText seen l).take (m - acc.length).toNat
  | [], seen, acc, _ => by simp [buildLoop, dedupeByText]
  | e :: rest, seen, acc, hlt => by
    by_cases hseen : e.text ∈ seen
    · have hnot : ¬ ((acc.length : Int) ≥ m) := by omega
      rw [buildLoop, if_pos hseen, if_neg hnot,
        buildLoop_eq_take m rest seen acc hlt]
      simp [dedupeByText, hseen]
    · by_cases hcap : ((acc ++ [e]).length : Int) ≥ m
      · have hm : (m - acc.length).toNat = 1 := by
          simp only [List.length_append, List.length_cons, List.length_nil] at hcap
          omega
        rw [buildLoop, if_neg hseen, if_pos hcap]
        simp [dedupeByText, hseen, hm]
      · have hlt' : ((acc ++ [e]).length : Int) < m := by omega
        rw [buildLoop, if_neg hseen, if_neg hcap,
          buildLoop_eq_take m rest (e.text :: seen) (acc ++ [e]) hlt']
        have hsucc : (m - acc.length).toNat = (m - (acc ++ [e]).length).toNat + 1 := by
          simp only [List.length_append, List.length_cons, List.length_nil] at hcap ⊢
          omega
        simp [dedupeByText, hseen, hsucc, List.append_assoc]

theorem sortEvents_pairwise (l : List TimelineEvent) : (sortEvents l).Pairwise byYear :=
  List.sorted_insertionSort byYear l

theorem sortEvents_perm (l : List TimelineEvent) : (sortEvents l).Perm l :=
  List.perm_insertionSort byYear l

theorem build_eq_take (pairs : List TimelineEvent) (m : Int) :
    build pairs m = (dedupeByText [] (sortEvents pairs)).take (max 1 m).toNat := by
  by_cases hm : 1 ≤ m
  · have h0 : ((([] : List TimelineEvent).length : Nat) : Int) < m := by
      simp only [List.length_nil, Int.natCast_zero]
      omega
    rw [build, buildLoop_eq_take m (sortEvents pairs) [] [] h0]
    have hn : (m - ((([] : List TimelineEvent).length : Nat) : Int)).toNat = (max 1 m).toNat := by
      simp only [List.length_nil, Int.natCast_zero]
      omega
    simp only [List.length_nil, Int.natCast_zero] at hn ⊢
    rw [hn]
    simp
  · have hmax : (max 1 m).toNat = 1 := by omega
    rw [build, hmax]
    cases hs : sortEvents pairs with
    | nil => simp [buildLoop, dedupeByText]
    | cons e rest =>
      have hcap : ((([] : List TimelineEvent) ++ [e]).length : Int) ≥ m := by
        simp; omega
      rw [buildLoop, if_neg (by simp), if_pos hcap]
      simp [dedupeByText]

theorem digitVal_le_nine (c : Char) (h : c.isDigit = true) : digitVal c ≤ 9 := by
  simp [Char.isDigit] at h
  obtain ⟨h1, h2⟩ := h
  have h2n : c.val.toNat ≤ (57 : UInt32).toNat := h2
  have e2 : (57 : UInt32).toNat = 57 := rfl
  have e0 : ('0' : Char).toNat = 48 := by decide
  rw [digitVal, e0, Char.toNat]
  omega

theorem digitVal_ge_of_isDigit (c : Char) (h : c.isDigit = true) : 48 ≤ c.toNat := by
  simp [Char.isDigit] at h
  obtain ⟨h1, h2⟩ := h
  have h1n : (48 : UInt32).toNat ≤ c.val.toNat := h1
  have e1 : (48 : UInt32).toNat = 48 := rfl
  rw [Char.toNat]
  omega

theorem isWordChar_of_isDigit (c : Char) (h : c.isDigit = true) : isWordChar c = true := by
  simp [isWordChar, h]

theorem isYearDigits_elim {c1 c2 c3 c4 : Char} (h : isYearDigits c1 c2 c3 c4 = true) :
    (c1 = '1' ∧ (c2 = '8' ∨ c2 = '9') ∨ c1 = '2' ∧ c2 = '0') ∧
    c3.isDigit = true ∧ c4.isDigit = true := by
  simp only [isYearDigits, Bool.or_eq_true, Bool.and_eq_true, beq_iff_eq] at h
  rcases h with ⟨⟨⟨h1, h2⟩, h3⟩, h4⟩ | ⟨⟨⟨h1, h2⟩, h3⟩, h4⟩
  · exact ⟨Or.inl ⟨h1, h2⟩, h3, h4⟩
  · exact ⟨Or.inr ⟨h1, h2⟩, h3, h4⟩

theorem isYearDigits_words {c1 c2 c3 c4 : Char} (h : isYearDigits c1 c2 c3 c4 = true) :
    isWordChar c1 = true ∧ isWordChar c2 = true ∧
    isWordChar c3 = true ∧ isWordChar c4 = true := by
  obtain ⟨h12, h3, h4⟩ := isYearDigits_elim h
  refine ⟨?_, ?_, isWordChar_of_isDigit _ h3, isWordChar_of_isDigit _ h4⟩
  · rcases h12 with ⟨rfl, _⟩ | ⟨rfl, _⟩ <;> decide
  · rcases h12 with ⟨_, rfl | rfl⟩ | ⟨_, rfl⟩ <;> decide

theorem yearVal_range {c1 c2 c3 c4 : Char} (h : isYearDigits c1 c2 c3 c4 = true) :
    1800 ≤ yearVal c1 c2 c3 c4 ∧ yearVal c1 c2 c3 c4 ≤ 2099 := by
  obtain ⟨h12, h3, h4⟩ := isYearDigits_elim h
  have b3 := digitVal_le_nine _ h3
  have b4 := digitVal_le_nine _ h4
  rcases h12 with ⟨rfl, rfl | rfl⟩ | ⟨rfl, rfl⟩ <;>
    · rw [yearVal]
      have e1 : digitVal '1' = 1 := by decide
      have e2 : digitVal '2' = 2 := by decide
      have e8 : digitVal '8' = 8 := by decide
      have e9 : digitVal '9' = 9 := by decide
      have e0 : digitVal '0' = 0 := by decide
      simp only [e1, e2, e8, e9, e0]
      omega

theorem effPrev_cons (prev : Option Char) (a : Char) (pre : List Char) :
    effPrev prev (a :: pre) = effPrev (some a) pre := by
  cases pre with
  | nil => rfl
  | cons b pre =>
    cases hl : (b :: pre).getLast? with
    | none => simp at hl
    | some c => simp [effPrev, List.getLast?_cons_cons, hl]

theorem findYearsAux_short : ∀ (l : List Char) (prev : Option Char),
    l.length < 4 → findYearsAux prev l = []
  | [], _, _ => rfl
  | [_], _, _ => rfl
  | [_, _], _, _ => rfl
  | [_, _, _], _, _ => rfl
  | _ :: _ :: _ :: _ :: _, _, h => by simp at h; omega

theorem findYearsAux_range :
    ∀ (l : List Char) (prev : Option Char) (y : Nat),
    y ∈ findYearsAux prev l → 1800 ≤ y ∧ y ≤ 2099
  | c1 :: c2 :: c3 :: c4 :: rest, prev, y, h => by
    by_cases hc : (isYearDigits c1 c2 c3 c4 && !prevIsWord prev && !headIsWord rest) = true
    · rw [show findYearsAux prev (c1 :: c2 :: c3 :: c4 :: rest) =
          yearVal c1 c2 c3 c4 :: findYearsAux (some c4) rest from by
        simp [findYearsAux, hc]] at h
      rcases List.mem_cons.mp h with rfl | h'
      · exact yearVal_range (by
          simp only [Bool.and_eq_true] at hc
          exact hc.1.1)
      · exact findYearsAux_range rest (some c4) y h'
    · rw [show findYearsAux prev (c1 :: c2 :: c3 :: c4 :: rest) =
          findYearsAux (some c1) (c2 :: c3 :: c4 :: rest) from by
        simp [findYearsAux, hc]] at h
      exact findYearsAux_range (c2 :: c3 :: c4 :: rest) (some c1) y h
  | [c], prev, y, h => by rw [findYearsAux_short [c] prev (by simp)] at h; cases h
  | [c1, c2], prev, y, h => by
    rw [findYearsAux_short [c1, c2] prev (by simp)] at h
    cases h
  | [c1, c2, c3], prev, y, h => by
    rw [findYearsAux_short [c1, c2, c3] prev (by simp)] at h
    cases h
  | [], prev, y, h => by cases h

theorem findYearsAux_sound :
    ∀ (l : List Char) (prev : Option Char) (y : Nat),
    y ∈ findYearsAux prev l → wordBoundedYearOccurrence prev l y
  | c1 :: c2 :: c3 :: c4 :: rest, prev, y, h => by
    by_cases hc : (isYearDigits c1 c2 c3 c4 && !prevIsWord prev && !headIsWord rest) = true
    · rw [show findYearsAux prev (c1 :: c2 :: c3 :: c4 :: rest) =
          yearVal c1 c2 c3 c4 :: findYearsAux (some c4) rest from by
        simp [findYearsAux, hc]] at h
      obtain ⟨⟨hyd, hbl⟩, hbr⟩ :
          (isYearDigits c1 c2 c3 c4 = true ∧ (!prevIsWord prev) = true) ∧
          (!headIsWord rest) = true := by
        simpa only [Bool.and_eq_true] using hc
      rcases List.mem_cons.mp h with rfl | h'
      · exact ⟨[], c1, c2, c3, c4, rest, rfl, hyd,
          by simpa [effPrev] using hbl, by simpa using hbr, rfl⟩
      · obtain ⟨pre, t1, t2, t3, t4, post, hs, hyd', hbl', hbr', hy⟩ :=
          findYearsAux_sound rest (some c4) y h'
        refine ⟨c1 :: c2 :: c3 :: c4 :: pre, t1, t2, t3, t4, post,
          by simp [hs], hyd', ?_, hbr', hy⟩
        rw [effPrev_cons, effPrev_cons, effPrev_cons, effPrev_cons]
        exact hbl'
    · rw [show findYearsAux prev (c1 :: c2 :: c3 :: c4 :: rest) =
          findYearsAux (some c1) (c2 :: c3 :: c4 :: rest) from by
        simp [findYearsAux, hc]] at h
      obtain ⟨pre, t1, t2, t3, t4, post, hs, hyd', hbl', hbr', hy⟩ :=
        findYearsAux_sound (c2 :: c3 :: c4 :: rest) (some c1) y h
      exact ⟨c1 :: pre, t1, t2, t3, t4, post, by simp [hs], hyd',
        by rw [effPrev_cons]; exact hbl', hbr', hy⟩
  | [c], prev, y, h => by rw [findYearsAux_short [c] prev (by simp)] at h; cases h
  | [c1, c2], prev, y, h => by
    rw [findYearsAux_short [c1, c2] prev (by simp)] at h
    cases h
  | [c1, c2, c3], prev, y, h => by
    rw [findYearsAux_short [c1, c2, c3] prev (by simp)] at h
    cases h
  | [], prev, y, h => by cases h

theorem findYearsAux_complete :
    ∀ (l : List Char) (prev : Option Char) (y : Nat),
    wordBoundedYearOccurrence prev l y → y ∈ findYearsAux prev l
  | c1 :: c2 :: c3 :: c4 :: rest, prev, y, h => by
    obtain ⟨pre, t1, t2, t3, t4, post, hs, hyd, hbl, hbr, hy⟩ := h
    by_cases hc : (isYearDigits c1 c2 c3 c4 && !prevIsWord prev && !headIsWord rest) = true
    · rw [show findYearsAux prev (c1 :: c2 :: c3 :: c4 :: rest) =
          yearVal c1 c2 c3 c4 :: findYearsAux (some c4) rest from by
        simp [findYearsAux, hc]]
      obtain ⟨⟨hyd0, _⟩, _⟩ :
          (isYearDigits c1 c2 c3 c4 = true ∧ (!prevIsWord prev) = true) ∧
          (!headIsWord rest) = true := by
        simpa only [Bool.and_eq_true] using hc
      have hw := isYearDigits_words hyd0
      rcases pre with _ | ⟨a, _ | ⟨b, _ | ⟨c, _ | ⟨d, pre4⟩⟩⟩⟩
      · simp only [List.nil_append, List.cons.injEq] at hs
        obtain ⟨rfl, rfl, rfl, rfl, rfl⟩ := hs
        rw [hy]
        exact List.mem_cons_self _ _
      · exfalso
        simp only [List.cons_append, List.nil_append, List.cons.injEq] at hs
        obtain ⟨rfl, _⟩ := hs
        simp [effPrev, prevIsWord, hw.1] at hbl
      · exfalso
        simp only [List.cons_append, List.nil_append, List.cons.injEq] at hs
        obtain ⟨rfl, rfl, _⟩ := hs
        simp [effPrev, prevIsWord, List.getLast?_cons_cons, hw.2.1] at hbl
      · exfalso
        simp only [List.cons_append, List.nil_append, List.cons.injEq] at hs
        obtain ⟨rfl, rfl, rfl, _⟩ := hs
        simp [effPrev, prevIsWord, List.getLast?_cons_cons, hw.2.2.1] at hbl
      · simp only [List.cons_append, List.cons.injEq] at hs
        obtain ⟨rfl, rfl, rfl, rfl, hrest⟩ := hs
        refine List.mem_cons_of_mem _
          (findYearsAux_complete rest (some c4) y
            ⟨pre4, t1, t2, t3, t4, post, hrest, hyd, ?_, hbr, hy⟩)
        rwa [effPrev_cons, effPrev_cons, effPrev_cons, effPrev_cons] at hbl
    · rw [show findYearsAux prev (c1 :: c2 :: c3 :: c4 :: rest) =
          findYearsAux (some c1) (c2 :: c3 :: c4 :: rest) from by
        simp [findYearsAux, hc]]
      rcases pre with _ | ⟨a, pre'⟩
      · exfalso
        simp only [List.nil_append, List.cons.injEq] at hs
        obtain ⟨rfl, rfl, rfl, rfl, rfl⟩ := hs
        apply hc
        simp only [Bool.and_eq_true]
        refine ⟨⟨hyd, ?_⟩, ?_⟩
        · simpa [effPrev, Bool.not_eq_true'] using hbl
        · simpa [Bool.not_eq_true'] using hbr
      · simp only [List.cons_append, List.cons.injEq] at hs
        obtain ⟨rfl, hrest⟩ := hs
        exact findYearsAux_complete (c2 :: c3 :: c4 :: rest) (some c1) y
          ⟨pre', t1, t2, t3, t4, post, hrest, hyd,
            by rwa [effPrev_cons] at hbl, hbr, hy⟩
  | [c], prev, y, h => by
    obtain ⟨pre, t1, t2, t3, t4, post, hs, _⟩ := h
    have := congrArg List.length hs
    simp [List.length_append] at this
    omega
  | [c1, c2], prev, y, h => by
    obtain ⟨pre, t1, t2, t3, t4, post, hs, _⟩ := h
    have := congrArg List.length hs
    simp [List.length_append] at this
    omega
  | [c1, c2, c3], prev, y, h => by
    obtain ⟨pre, t1, t2, t3, t4, post, hs, _⟩ := h
    have := congrArg List.length hs
    simp [List.length_append] at this
    omega
  | [], prev, y, h => by
    obtain ⟨pre, t1, t2, t3, t4, post, hs, _⟩ := h
    cases pre <;> simp at hs

theorem extract_texts_nodup (text : String) (m : Int) :
    ((extract_timeline_from_text text m).map TimelineEvent.text).Nodup := by
  by_cases h : text = ""
  · simp [extract_timeline_from_text, h]
  · rw [extract_timeline_from_text, if_neg h, build_eq_take]
    exact List.Nodup.sublist
      (List.Sublist.map _ (List.take_sublist _ _))
      (nodup_texts_dedupeByText _ _)

theorem extract_pairwise_byYear (text : String) (m : Int) :
    (extract_timeline_from_text text m).Pairwise byYear := by
  by_cases h : text = ""
  · simp [extract_timeline_from_text, h]
  · rw [extract_timeline_from_text, if_neg h, build_eq_take]
    exact List.Pairwise.sublist
      ((List.take_sublist _ _).trans (dedupeByText_sublist _ _))
      (sortEvents_pairwise _)

theorem mem_raw_of_mem_extract {text : String} {m : Int} {e : TimelineEvent}
    (h : e ∈ extract_timeline_from_text text m) : e ∈ rawEvents text := by
  by_cases ht : text = ""
  · simp [extract_timeline_from_text, ht] at h
  · rw [extract_timeline_from_text, if_neg ht, build_eq_take] at h
    exact (sortEvents_perm _).mem_iff.mp
      (List.Sublist.mem (List.mem_of_mem_take h) (dedupeByText_sublist _ _))

theorem year_min_of_mem_extract {text : String} {m : Int} {e : TimelineEvent}
    (h : e ∈ extract_timeline_from_text text m) :
    ∀ p ∈ rawEvents text, p.text = e.text → e.year ≤ p.year := by
  by_cases ht : text = ""
  · simp [extract_timeline_from_text, ht] at h
  · rw [extract_timeline_from_text, if_neg ht, build_eq_take] at h
    intro p hp hpt
    exact year_min_of_mem_dedupeByText _ _ _ (sortEvents_pairwise _)
      (List.mem_of_mem_take h) p ((sortEvents_perm _).mem_iff.mpr hp) hpt

/-- C1: on the three-sentence example with max_events two, extraction returns
exactly the 1821 event and the 1840 event; the second sentence holds two year
matches but contributes a single event, and the third sentence is cut by the
cap. -/
theorem timeline_example_two_events :
    extract_timeline_from_text
        "He was born in 1821. He studied law in 1840 and 1841. He died in 1890." 2 =
      [TimelineEvent.mk 1821 "He was born in 1821.",
       TimelineEvent.mk 1840 "He studied law in 1840 and 1841."] ∧
    (findYears "He studied law in 1840 and 1841.".data).length = 2 := by
  constructor
  · decide
  · decide

/-- C2 counterexample: with max_events zero the cap is checked only after the
first append, so a year-bearing input yields one event, not an empty
timeline, refuting both the universal cap bound and the empty-result row for
nonpositive max_events. -/
theorem timeline_cap_violated_at_zero :
    build [TimelineEvent.mk 1900 "In 1900."] 0 = [TimelineEvent.mk 1900 "In 1900."] ∧
    extract_timeline_from_text "In 1900." 0 = [TimelineEvent.mk 1900 "In 1900."] ∧
    ¬ (extract_timeline_from_text "In 1900." 0).length ≤ 0 := by
  refine ⟨by decide, by decide, by decide⟩

/-- C2 amended: the built timeline is exactly the first max(1, max_events)
entries of the deduplicated stable-sorted event list, hence its length is at
most max_events when max_events is at least one, but a nonpositive
max_events still lets one event through when any event exists. -/
theorem timeline_cap_amended :
    ∀ (pairs : List TimelineEvent) (m : Int),
      build pairs m = (dedupeByText [] (sortEvents pairs)).take (max 1 m).toNat ∧
      (build pairs m).length ≤ (max 1 m).toNat ∧
      ∀ text : String, (extract_timeline_from_text text m).length ≤ (max 1 m).toNat := by
  intro pairs m
  refine ⟨build_eq_take pairs m, ?_, ?_⟩
  · rw [build_eq_take]
    exact List.length_take_le _ _
  · intro text
    by_cases h : text = ""
    · simp [extract_timeline_from_text, h]
    · rw [extract_timeline_from_text, if_neg h, build_eq_take]
      exact List.length_take_le _ _

/-- C3 counterexample: the guard on src/app.py line 385 only catches falsy
values, so a truthy non-string such as the integer one reaches re.split and
raises TypeError instead of returning an empty result. -/
theorem extract_raises_on_truthy_nonstring :
    extract_py (PyVal.int 1) 8 = Except.error "TypeError" ∧
    ¬ extract_py (PyVal.int 1) 8 = Except.ok [] := by
  refine ⟨rfl, fun h => ?_⟩
  simp [extract_py, truthy] at h

/-- C3 amended: falsy inputs (None, the empty string, zero, the empty list)
yield an empty result without error, string inputs run the extraction, and
truthy non-string inputs raise TypeError at the regex split. -/
theorem extract_input_safety_amended :
    ∀ (v : PyVal) (m : Int),
      (truthy v = false → extract_py v m = Except.ok []) ∧
      (∀ s, v = PyVal.str s → extract_py v m = Except.ok (extract_timeline_from_text s m)) ∧
      (truthy v = true → (∀ s, v ≠ PyVal.str s) → extract_py v m = Except.error "TypeError") := by
  intro v m
  refine ⟨fun hf => ?_, fun s hs => ?_, fun ht hns => ?_⟩
  · cases v with
    | none => rfl
    | str s =>
      have hs : s = "" := by simpa [truthy] using hf
      subst hs
      rfl
    | int n =>
      have hn : n = 0 := by simpa [truthy] using hf
      subst hn
      rfl
    | list xs =>
      have hx : xs = [] := by simpa [truthy] using hf
      subst hx
      rfl
  · subst hs
    by_cases he : s = ""
    · subst he
      rfl
    · simp [extract_py, truthy, he]
  · cases v with
    | none => simp [truthy] at ht
    | str s => exact absurd rfl (hns s)
    | int n => simp [extract_py, ht]
    | list xs => simp [extract_py, ht]

theorem extract_input_safety_witness :
    extract_py PyVal.none 8 = Except.ok [] ∧
    extract_py (PyVal.str "In 1900.") 8 =
      Except.ok (extract_timeline_from_text "In 1900." 8) ∧
    extract_py (PyVal.int 2) 8 = Except.error "TypeError" :=
  ⟨(extract_input_safety_amended PyVal.none 8).1 rfl,
   (extract_input_safety_amended (PyVal.str "In 1900.") 8).2.1 _ rfl,
   (extract_input_safety_amended (PyVal.int 2) 8).2.2 rfl
     (fun _ h => PyVal.noConfusion h)⟩

/-- C4 counterexample: the year 1821 in the text a1821. is bounded on both
sides by non-digit characters (the letter a and a period), yet the regex of
line 391 finds nothing there, because its word boundary also rejects
letters; so matching is not characterized by non-digit delimiters. -/
theorem year_boundary_nondigit_refuted :
    specNonDigitBoundedOccurrence "a1821.".data 1821 ∧
    findYears "a1821.".data = [] ∧
    ¬ (1821 ∈ findYears "a1821.".data ↔
        specNonDigitBoundedOccurrence "a1821.".data 1821) := by
  have h1 : specNonDigitBoundedOccurrence "a1821.".data 1821 :=
    ⟨['a'], '1', '8', '2', '1', ['.'], by decide, by decide, by decide,
      by decide, by decide⟩
  have h2 : findYears "a1821.".data = [] := by decide
  refine ⟨h1, h2, fun hiff => ?_⟩
  have hmem := hiff.mpr h1
  rw [h2] at hmem
  cases hmem

/-- C4 amended: a year is found in a sentence exactly when its four digits
(18, 19 or 20 followed by two digits) are delimited by non-word characters
or the string edge on both sides (word-boundary semantics, where letters,
digits and underscore are word characters), and consequently every year in
every emitted event lies between 1800 and 2099. -/
theorem year_match_characterization :
    (∀ (s : List Char) (y : Nat),
      y ∈ findYears s ↔ wordBoundedYearOccurrence none s y) ∧
    (∀ (text : String) (m : Int), ∀ e ∈ extract_timeline_from_text text m,
      1800 ≤ e.year ∧ e.year ≤ 2099) := by
  constructor
  · exact fun s y =>
      ⟨findYearsAux_sound s none y, findYearsAux_complete s none y⟩
  · intro text m e he
    obtain ⟨s, _, hes⟩ := List.mem_flatMap.mp (mem_raw_of_mem_extract he)
    obtain ⟨y, hy, rfl⟩ := List.mem_map.mp hes
    exact findYearsAux_range s none y hy

theorem year_match_characterization_witness :
    (1821 ∈ findYears "He was born in 1821.".data ↔
      wordBoundedYearOccurrence none "He was born in 1821.".data 1821) ∧
    (1800 ≤ (TimelineEvent.mk 1821 "He was born in 1821.").year ∧
      (TimelineEvent.mk 1821 "He was born in 1821.").year ≤ 2099) :=
  ⟨year_match_characterization.1 "He was born in 1821.".data 1821,
   year_match_characterization.2 "He was born in 1821." 8
     (TimelineEvent.mk 1821 "He was born in 1821.") (by decide)⟩

/-- C5: no two events of an extracted timeline carry the same sentence text;
the list of texts of the output is duplicate-free for every input text and
every cap. -/
theorem timeline_texts_nodup :
    ∀ (text : String) (m : Int),
      ((extract_timeline_from_text text m).map TimelineEvent.text).Nodup :=
  fun text m => extract_texts_nodup text m

/-- C6: every extracted timeline is ascending in year on adjacent pairs. -/
theorem timeline_sorted_by_year :
    ∀ (text : String) (m : Int) (i : Nat)
      (h : i + 1 < (extract_timeline_from_text text m).length),
      ((extract_timeline_from_text text m).get ⟨i, Nat.lt_of_succ_lt h⟩).year ≤
      ((extract_timeline_from_text text m).get ⟨i + 1, h⟩).year :=
  fun text m i h =>
    List.pairwise_iff_get.mp (extract_pairwise_byYear text m)
      ⟨i, Nat.lt_of_succ_lt h⟩ ⟨i + 1, h⟩ (by exact Nat.lt_succ_self i)

theorem timeline_sorted_by_year_witness :
    ((extract_timeline_from_text "In 1900. Then 1899." 8).get ⟨0, by decide⟩).year ≤
    ((extract_timeline_from_text "In 1900. Then 1899." 8).get ⟨1, by decide⟩).year :=
  timeline_sorted_by_year "In 1900. Then 1899." 8 0 (by decide)

/-- C7: a sentence with N year matches contributes N raw events all carrying
its stripped text; after deduplication each text occurs at most once in the
output, and a surviving event carries the smallest year paired with its text
among the raw events. -/
theorem sentence_events_dedup_min :
    (∀ s : List Char,
      (eventsOfSentence s).length = (findYears s).length ∧
      ∀ ev ∈ eventsOfSentence s, ev.text = (pyStrip s).asString) ∧
    (∀ (text : String) (m : Int) (t : String),
      ((extract_timeline_from_text text m).map TimelineEvent.text).count t ≤ 1) ∧
    (∀ (text : String) (m : Int) (e : TimelineEvent),
      e ∈ extract_timeline_from_text text m →
      e ∈ rawEvents text ∧ ∀ p ∈ rawEvents text, p.text = e.text → e.year ≤ p.year) := by
  refine ⟨fun s => ⟨List.length_map _ _, fun ev hev => ?_⟩, fun text m t => ?_, fun text m e he => ?_⟩
  · rcases List.mem_map.mp hev with ⟨y, _, rfl⟩
    rfl
  · exact List.nodup_iff_count_le_one.mp (extract_texts_nodup text m) t
  · exact ⟨mem_raw_of_mem_extract he, year_min_of_mem_extract he⟩

theorem sentence_events_dedup_min_witness :
    (eventsOfSentence "In 1900.".data).length = (findYears "In 1900.".data).length ∧
    ((extract_timeline_from_text "In 1900." 8).map TimelineEvent.text).count "In 1900." ≤ 1 ∧
    (TimelineEvent.mk 1900 "In 1900." ∈ rawEvents "In 1900." ∧
      ∀ p ∈ rawEvents "In 1900.", p.text = "In 1900." →
        (TimelineEvent.mk 1900 "In 1900.").year ≤ p.year) :=
  ⟨(sentence_events_dedup_min.1 "In 1900.".data).1,
   sentence_events_dedup_min.2.1 "In 1900." 8 "In 1900.",
   sentence_events_dedup_min.2.2 "In 1900." 8
     (TimelineEvent.mk 1900 "In 1900.") (by decide)⟩

theorem isPrefixOf_eq_append :
    ∀ (a b : List Char), a.isPrefixOf b = true ↔ ∃ t, a ++ t = b
  | [], b => by simp [List.isPrefixOf]
  | x :: xs, [] => by simp [List.isPrefixOf]
  | x :: xs, y :: ys => by
    simp only [List.isPrefixOf, Bool.and_eq_true, beq_iff_eq,
      isPrefixOf_eq_append xs ys, List.cons_append, List.cons.injEq]
    constructor
    · rintro ⟨rfl, t, rfl⟩
      exact ⟨t, rfl, rfl⟩
    · rintro ⟨t, rfl, rfl⟩
      exact ⟨rfl, t, rfl⟩

theorem reSearch_eq_true_iff (alts : List (List Char)) :
    ∀ hay : List Char,
    reSearch alts hay = true ↔ ∃ a ∈ alts, ∃ l r, hay = l ++ a ++ r
  | [] => by
    simp only [reSearch, matchesAt, List.any_eq_true]
    constructor
    · rintro ⟨a, ha, hp⟩
      obtain ⟨t, ht⟩ := (isPrefixOf_eq_append a []).mp hp
      exact ⟨a, ha, [], t, by simp [ht.symm]⟩
    · rintro ⟨a, ha, l, r, hd⟩
      refine ⟨a, ha, (isPrefixOf_eq_append a []).mpr ⟨r, ?_⟩⟩
      have hl : l = [] := by
        cases l with
        | nil => rfl
        | cons x xs => simp at hd
      subst hl
      simpa using hd.symm
  | c :: rest => by
    simp only [reSearch, Bool.or_eq_true, matchesAt, List.any_eq_true,
      reSearch_eq_true_iff alts rest]
    constructor
    · rintro (⟨a, ha, hp⟩ | ⟨a, ha, l, r, hd⟩)
      · obtain ⟨t, ht⟩ := (isPrefixOf_eq_append a (c :: rest)).mp hp
        exact ⟨a, ha, [], t, by simp [ht.symm]⟩
      · exact ⟨a, ha, c :: l, r, by simp [hd]⟩
    · rintro ⟨a, ha, l, r, hd⟩
      cases l with
      | nil =>
        refine Or.inl ⟨a, ha, (isPrefixOf_eq_append a (c :: rest)).mpr ⟨r, ?_⟩⟩
        simpa using hd.symm
      | cons x xs =>
        simp only [List.cons_append, List.cons.injEq] at hd
        exact Or.inr ⟨a, ha, xs, r, hd.2⟩

/-- C8: a section title passes the works test exactly when its lowercased
form contains one of the five keywords as a substring (not whole-word), and
in particular the titles BIBLIOGRAPHY and Selected Works and Publications
both pass. -/
theorem works_keyword_match :
    (∀ title : String,
      matchSection title = true ↔
      ∃ kw ∈ worksKeywords, ∃ l r, title.data.map Char.toLower = l ++ kw ++ r) ∧
    matchSection "BIBLIOGRAPHY" = true ∧
    matchSection "Selected Works and Publications" = true := by
  refine ⟨fun title => reSearch_eq_true_iff worksKeywords _, by decide, by decide⟩

/-- C9: on the three-section example the collector returns exactly the
matched section and its child with the composite heading, skipping the
unmatched neighbours; the output never depends on grandchildren (pruning
them changes nothing); and the included child of the example has a title
that matches no keyword, so children are included unconditionally. -/
theorem works_collector_example_and_depth :
    collectWorks
        [Section.mk "Early Life" "A" [],
         Section.mk "Selected Works" "X" [Section.mk "1990s" "Y" []],
         Section.mk "Legacy" "D" []] =
      [("Selected Works", "X"), ("Selected Works → 1990s", "Y")] ∧
    (∀ sections : List Section,
      collectWorks (pruneGrandchildren sections) = collectWorks sections) ∧
    matchSection "1990s" = false := by
  refine ⟨by decide, fun sections => ?_, by decide⟩
  unfold collectWorks pruneGrandchildren
  rw [List.flatMap_map]
  simp only [List.map_map]
  rfl

/-- C10: adding a favorite appends only when absent (preserving the order of
distinct names and making a repeated add a no-op), both operations preserve
freedom from duplicates, and removal of an absent name changes nothing. -/
theorem favorites_invariants :
    ∀ (name : String) (favs : List String),
      (name ∈ favs → add_favorite name favs = favs) ∧
      (name ∉ favs → add_favorite name favs = favs ++ [name]) ∧
      add_favorite name (add_favorite name favs) = add_favorite name favs ∧
      (favs.Nodup → (add_favorite name favs).Nodup) ∧
      (favs.Nodup → (remove_favorite name favs).Nodup) ∧
      (name ∉ favs → remove_favorite name favs = favs) := by
  intro name favs
  refine ⟨fun h => by simp [add_favorite, h], fun h => by simp [add_favorite, h],
    ?_, fun hnd => ?_, fun hnd => ?_, fun h => by simp [remove_favorite, h]⟩
  · by_cases h : name ∈ favs
    · simp [add_favorite, h]
    · have hmem : name ∈ favs ++ [name] := by simp
      simp [add_favorite, h, hmem]
  · by_cases h : name ∈ favs
    · simpa [add_favorite, h] using hnd
    · have hap : (favs ++ [name]).Nodup := by
        rw [List.nodup_append]
        refine ⟨hnd, List.nodup_singleton name, fun a ha hb => ?_⟩
        have : a = name := by simpa using hb
        exact h (this ▸ ha)
      simpa [add_favorite, h] using hap
  · by_cases h : name ∈ favs
    · simpa [remove_favorite, h] using List.Nodup.erase name hnd
    · simpa [remove_favorite, h] using hnd

theorem favorites_invariants_witness :
    add_favorite "Ada" ["Ada"] = ["Ada"] ∧
    add_favorite "Bob" ["Ada"] = ["Ada"] ++ ["Bob"] ∧
    (remove_favorite "Bob" ["Ada"]).Nodup ∧
    remove_favorite "Bob" ["Ada"] = ["Ada"] :=
  ⟨(favorites_invariants "Ada" ["Ada"]).1 (by decide),
   (favorites_invariants "Bob" ["Ada"]).2.1 (by decide),
   (favorites_invariants "Bob" ["Ada"]).2.2.2.2.1 (by decide),
   (favorites_invariants "Bob" ["Ada"]).2.2.2.2.2 (by decide)⟩

end Legends
